import Mathlib

/-!
Verification of the XFeat inference module (`modules/xfeat.py`): feature
decoding, selection and matching pipeline.

Shallow embedding conventions:
* tensors become Lean lists or index functions over ℚ (exact rational
  arithmetic stands in for the idealized real semantics of the float code);
* the backbone network, the interpolators and the fine matcher are external
  collaborators: they enter as function parameters;
* `softmax` needs the exponential, which is abstracted as a parameter
  `e : ℚ → ℚ` together with the positivity hypothesis `∀ x, 0 < e x` that
  the real exponential satisfies — every softmax property proved here holds
  for the real softmax;
* `torch.max(dim)` / `torch.argmax` return the first maximal index, which is
  what `argmaxIdx` computes.
-/

namespace XFeat

/-- Maximum of a list of rationals (the empty list yields `0`; it is only
applied to nonempty lists, mirroring `torch.max` which errors on empty). -/
def listMaxD : List ℚ → ℚ
  | [] => 0
  | [x] => x
  | x :: y :: ys => max x (listMaxD (y :: ys))

/-- First index of the maximum value of a list, the tie-breaking rule of
`torch.max(dim)` and `torch.argmax`. -/
def argmaxIdx : List ℚ → ℕ
  | [] => 0
  | [_] => 0
  | x :: y :: ys => if x < listMaxD (y :: ys) then argmaxIdx (y :: ys) + 1 else 0

theorem argmaxIdx_lt (l : List ℚ) (h : l ≠ []) : argmaxIdx l < l.length := by
  match l with
  | [x] => simp [argmaxIdx]
  | x :: y :: ys =>
    have ih := argmaxIdx_lt (y :: ys) (by simp)
    simp only [List.length_cons] at ih ⊢
    by_cases hc : x < listMaxD (y :: ys) <;>
      simp only [argmaxIdx, if_pos, if_neg, hc, if_true, if_false] <;> omega

theorem getD_argmaxIdx (l : List ℚ) : l.getD (argmaxIdx l) 0 = listMaxD l := by
  match l with
  | [] => simp [argmaxIdx, listMaxD]
  | [x] => simp [argmaxIdx, listMaxD]
  | x :: y :: ys =>
    have ih := getD_argmaxIdx (y :: ys)
    have h2 : listMaxD (x :: y :: ys) = max x (listMaxD (y :: ys)) := by
      simp [listMaxD]
    by_cases hc : x < listMaxD (y :: ys)
    · have h1 : argmaxIdx (x :: y :: ys) = argmaxIdx (y :: ys) + 1 := by
        simp [argmaxIdx, hc]
      rw [h1, h2, List.getD_cons_succ, ih, max_eq_right (le_of_lt hc)]
    · have h1 : argmaxIdx (x :: y :: ys) = 0 := by simp [argmaxIdx, hc]
      rw [h1, h2, List.getD_cons_zero, max_eq_left (le_of_not_lt hc)]

/-- Dot product of two descriptor vectors (`feats1 @ feats2.t()` entrywise). -/
def dot (u v : List ℚ) : ℚ := (List.zipWith (fun a b => a * b) u v).sum

theorem dot_comm (u v : List ℚ) : dot u v = dot v u := by
  unfold dot
  rw [List.zipWith_comm_of_comm _ (fun a b => mul_comm a b)]

/-- One row of the cosine-similarity matrix `u @ feats.t()`: the similarities
of the single descriptor `u` against every descriptor in `feats`. -/
def simRow (u : List ℚ) (feats : List (List ℚ)) : List ℚ :=
  feats.map (fun v => dot u v)

/-- Embeds `match12` of `XFeat.match`: the row arg-max of `feats1 @ feats2.t()`
(for row `i`). `m12 feats2 feats1` is `match21`, the row arg-max of
`feats2 @ feats1.t()`, exactly as the source computes it. -/
def m12 (feats1 feats2 : List (List ℚ)) (i : ℕ) : ℕ :=
  argmaxIdx (simRow (feats1.getD i []) feats2)

/-- Embeds `mutual` of `XFeat.match`: `match21[match12[i]] == i`. -/
def isMutual (feats1 feats2 : List (List ℚ)) (i : ℕ) : Bool :=
  m12 feats2 feats1 (m12 feats1 feats2 i) == i

/-- Embeds `cossim.max(dim=1)` of `XFeat.match`: the maximum similarity of row `i`. -/
def rowMax (feats1 feats2 : List (List ℚ)) (i : ℕ) : ℚ :=
  listMaxD (simRow (feats1.getD i []) feats2)

/-- The row filter of `XFeat.match`: `mutual & good` when `min_cossim > 0`,
plain `mutual` otherwise. -/
def keepRow (feats1 feats2 : List (List ℚ)) (mc : ℚ) (i : ℕ) : Bool :=
  if 0 < mc then isMutual feats1 feats2 i && decide (mc < rowMax feats1 feats2 i)
  else isMutual feats1 feats2 i

/-- Embeds `XFeat.match`: mutual-nearest-neighbor matching of two descriptor sets,
returning the kept `(idx0, idx1)` pairs (the source returns the two index
arrays separately; we return them zipped). The Python default for
`min_cossim` is `0.95`; see `matchDefault`. -/
def «match» (feats1 feats2 : List (List ℚ)) (mc : ℚ) : List (ℕ × ℕ) :=
  ((List.range feats1.length).filter (keepRow feats1 feats2 mc)).map
    (fun i => (i, m12 feats1 feats2 i))

/-- Embeds `XFeat.match` called with its Python default argument `min_cossim = 0.95`
(spelled `mkRat 95 100`, which is the exact rational `95 / 100`). -/
def matchDefault (feats1 feats2 : List (List ℚ)) : List (ℕ × ℕ) :=
  «match» feats1 feats2 (mkRat 95 100)

/-- The matching step of `XFeat.match_xfeat`, which calls `self.match` with
its own default `min_cossim = -1`. -/
def match_xfeat_core (d1 d2 : List (List ℚ)) : List (ℕ × ℕ) :=
  «match» d1 d2 (-1)

/-- Embeds `match21` of `XFeat.batch_match` (one batch slice): the arg-max over `i`
of column `j` of the similarity matrix, computed there by transposing the
`bmm` product rather than by a second product. -/
def bmatch21 (feats1 feats2 : List (List ℚ)) (j : ℕ) : ℕ :=
  argmaxIdx (feats1.map (fun u => dot u (feats2.getD j [])))

/-- The row filter of `XFeat.batch_match` on one batch slice. -/
def batchKeep (feats1 feats2 : List (List ℚ)) (mc : ℚ) (i : ℕ) : Bool :=
  if 0 < mc then
    (bmatch21 feats1 feats2 (m12 feats1 feats2 i) == i)
      && decide (mc < rowMax feats1 feats2 i)
  else bmatch21 feats1 feats2 (m12 feats1 feats2 i) == i

/-- Embeds `XFeat.batch_match`: the batched mutual-nearest-neighbor matcher. Each
returned element is one row of `(idx0_b, idx1_b)`, i.e. `((b, i), (b, j))`,
enumerated in the row-major order of `mutual.nonzero()`. The Python default
for `min_cossim` is `-1`. -/
def batch_match (F1 F2 : List (List (List ℚ))) (mc : ℚ) :
    List ((ℕ × ℕ) × (ℕ × ℕ)) :=
  (List.range F1.length).flatMap (fun b =>
    ((List.range (F1.getD b []).length).filter
        (batchKeep (F1.getD b []) (F2.getD b []) mc)).map
      (fun i => ((b, i), (b, m12 (F1.getD b []) (F2.getD b []) i))))

theorem bmatch21_eq_m12 (feats1 feats2 : List (List ℚ)) (j : ℕ) :
    bmatch21 feats1 feats2 j = m12 feats2 feats1 j := by
  unfold bmatch21 m12 simRow
  congr 1
  exact List.map_congr_left (fun u _ => dot_comm u (feats2.getD j []))

theorem batchKeep_eq_keepRow (feats1 feats2 : List (List ℚ)) (mc : ℚ) (i : ℕ) :
    batchKeep feats1 feats2 mc i = keepRow feats1 feats2 mc i := by
  unfold batchKeep keepRow isMutual
  rw [bmatch21_eq_m12]

theorem mutual_of_keepRow {f1 f2 : List (List ℚ)} {mc : ℚ} {i : ℕ}
    (h : keepRow f1 f2 mc i = true) :
    m12 f2 f1 (m12 f1 f2 i) = i := by
  unfold keepRow at h
  split at h
  · simp only [Bool.and_eq_true] at h
    have := h.1
    unfold isMutual at this
    exact beq_iff_eq.mp this
  · unfold isMutual at h
    exact beq_iff_eq.mp h

theorem good_of_keepRow {f1 f2 : List (List ℚ)} {mc : ℚ} {i : ℕ}
    (hmc : 0 < mc) (h : keepRow f1 f2 mc i = true) :
    mc < rowMax f1 f2 i := by
  unfold keepRow at h
  rw [if_pos hmc] at h
  simp only [Bool.and_eq_true] at h
  exact of_decide_eq_true h.2

theorem simRow_swap (g : List ℚ) (f : List (List ℚ)) :
    f.map (fun u => dot u g) = simRow g f :=
  List.map_congr_left (fun u _ => dot_comm u g)

/-- The similarity entry at a returned pair equals the row maximum. -/
theorem dot_at_argmax (u : List ℚ) (f2 : List (List ℚ)) (h : f2 ≠ []) :
    dot u (f2.getD (argmaxIdx (simRow u f2)) []) = listMaxD (simRow u f2) := by
  have hne : simRow u f2 ≠ [] := by
    simp [simRow, h]
  have hlt : argmaxIdx (simRow u f2) < f2.length := by
    have := argmaxIdx_lt (simRow u f2) hne
    simpa [simRow] using this
  have hlt2 : argmaxIdx (simRow u f2) < (simRow u f2).length := by
    simpa [simRow] using hlt
  rw [← getD_argmaxIdx (simRow u f2), List.getD_eq_getElem _ _ hlt2,
    List.getD_eq_getElem _ _ hlt]
  simp [simRow]

/-- C1. Reciprocity: every correspondence `(i, j)` returned by `match` (and,
with a batch index, by `batch_match`) has `j` equal to the first arg-max of
the cosine-similarity row of `i` and `i` equal to the first arg-max of the
cosine-similarity column of `j`. -/
theorem claim1_reciprocity (f1 f2 : List (List ℚ)) (mc : ℚ)
    (F1 F2 : List (List (List ℚ))) (p : ℕ × ℕ) (q : (ℕ × ℕ) × (ℕ × ℕ))
    (hp : p ∈ «match» f1 f2 mc) (hq : q ∈ batch_match F1 F2 mc) :
    (p.2 = argmaxIdx (f2.map (fun v => dot (f1.getD p.1 []) v)) ∧
      p.1 = argmaxIdx (f1.map (fun u => dot u (f2.getD p.2 [])))) ∧
    (q.1.1 = q.2.1 ∧
      q.2.2 = argmaxIdx ((F2.getD q.1.1 []).map
        (fun v => dot ((F1.getD q.1.1 []).getD q.1.2 []) v)) ∧
      q.1.2 = argmaxIdx ((F1.getD q.1.1 []).map
        (fun u => dot u ((F2.getD q.1.1 []).getD q.2.2 [])))) := by
  constructor
  · unfold «match» at hp
    obtain ⟨i, hi, rfl⟩ := List.mem_map.mp hp
    have hik := (List.mem_filter.mp hi).2
    have hmut := mutual_of_keepRow hik
    refine ⟨rfl, ?_⟩
    show i = argmaxIdx (f1.map (fun u => dot u (f2.getD (m12 f1 f2 i) [])))
    rw [simRow_swap]
    exact hmut.symm
  · unfold batch_match at hq
    obtain ⟨b, _, hq'⟩ := List.mem_flatMap.mp hq
    obtain ⟨i, hi, rfl⟩ := List.mem_map.mp hq'
    have hik := (List.mem_filter.mp hi).2
    rw [batchKeep_eq_keepRow] at hik
    have hmut := mutual_of_keepRow hik
    refine ⟨rfl, rfl, ?_⟩
    show i = argmaxIdx ((F1.getD b []).map
      (fun u => dot u ((F2.getD b []).getD (m12 (F1.getD b []) (F2.getD b []) i) [])))
    rw [simRow_swap]
    exact hmut.symm

/-- C1 witness: reciprocity instantiated on the concrete one-descriptor sets
`[[1]]` matched against themselves with `min_cossim = -1`. -/
theorem claim1_reciprocity_witness :
    (0 : ℕ) = argmaxIdx ([[(1 : ℚ)]].map
      (fun u => dot u ([[(1 : ℚ)]].getD 0 []))) :=
  (claim1_reciprocity [[(1 : ℚ)]] [[(1 : ℚ)]] (-1) [[[(1 : ℚ)]]] [[[(1 : ℚ)]]]
    (0, 0) ((0, 0), (0, 0))
    (by norm_num [«match», keepRow, isMutual, m12, simRow, rowMax, dot,
      listMaxD, argmaxIdx, List.range_succ])
    (by norm_num [batch_match, batchKeep, bmatch21, isMutual, m12, simRow,
      rowMax, dot, listMaxD, argmaxIdx, List.range_succ])).1.2

theorem keepRow_mono {f1 f2 : List (List ℚ)} {a b : ℚ} (hab : a ≤ b) (i : ℕ)
    (h : keepRow f1 f2 b i = true) : keepRow f1 f2 a i = true := by
  unfold keepRow at h ⊢
  by_cases h0a : 0 < a
  · have h0b : 0 < b := lt_of_lt_of_le h0a hab
    rw [if_pos h0b] at h
    rw [if_pos h0a]
    simp only [Bool.and_eq_true] at h ⊢
    exact ⟨h.1, decide_eq_true (lt_of_le_of_lt hab (of_decide_eq_true h.2))⟩
  · rw [if_neg h0a]
    by_cases h0b : 0 < b
    · rw [if_pos h0b] at h
      simp only [Bool.and_eq_true] at h
      exact h.1
    · rwa [if_neg h0b] at h

/-- C2. Threshold monotonicity: raising `min_cossim` in `match` keeps the
result a sublist (hence a subset with no more elements) of the result at the
lower threshold. -/
theorem claim2_threshold_monotone (f1 f2 : List (List ℚ)) (a b : ℚ)
    (hab : a ≤ b) :
    («match» f1 f2 b).Sublist («match» f1 f2 a) ∧
    (∀ p ∈ «match» f1 f2 b, p ∈ «match» f1 f2 a) ∧
    («match» f1 f2 b).length ≤ («match» f1 f2 a).length := by
  have hsub : («match» f1 f2 b).Sublist («match» f1 f2 a) := by
    unfold «match»
    exact (List.monotone_filter_right _ (fun i => keepRow_mono hab i)).map _
  exact ⟨hsub, fun p hp => hsub.subset hp, hsub.length_le⟩

/-- C2 witness: monotonicity instantiated at thresholds `-1 ≤ 2` on the
concrete sets `[[1]]`. -/
theorem claim2_threshold_monotone_witness :
    («match» [[(1 : ℚ)]] [[(1 : ℚ)]] 2).length ≤
      («match» [[(1 : ℚ)]] [[(1 : ℚ)]] (-1)).length :=
  (claim2_threshold_monotone [[(1 : ℚ)]] [[(1 : ℚ)]] (-1) 2 (by norm_num)).2.2

/-- C3. The batched matcher on a singleton batch returns exactly the pairs
of the pairwise matcher, tagged with batch index `0`, for every threshold. -/
theorem claim3_batch_refines_match (f1 f2 : List (List ℚ)) (mc : ℚ) :
    batch_match [f1] [f2] mc
      = («match» f1 f2 mc).map (fun p => ((0, p.1), (0, p.2))) := by
  unfold batch_match «match»
  have hr1 : List.range 1 = [0] := by decide
  simp only [hr1, List.flatMap_cons, List.flatMap_nil,
    List.append_nil, List.getD_cons_zero, List.map_map, List.length_cons,
    List.length_nil]
  rw [List.filter_congr (fun i _ => batchKeep_eq_keepRow f1 f2 mc i)]
  rfl

/-- C10. Defaults of the matcher entry points: `match` without an explicit
`min_cossim` uses `0.95` (so every returned pair's similarity exceeds
`0.95`), while the internal callers (`match_xfeat`, and the
`match_xfeat_star` path through `batch_match`) pass `min_cossim = -1`, which
disables the similarity filter and keeps every mutual pair. -/
theorem claim10_defaults :
    (∀ f1 f2 : List (List ℚ), matchDefault f1 f2 = «match» f1 f2 (95 / 100)) ∧
    (∀ (f1 f2 : List (List ℚ)) (p : ℕ × ℕ), p ∈ matchDefault f1 f2 →
      95 / 100 < dot (f1.getD p.1 []) (f2.getD p.2 [])) ∧
    (∀ d1 d2 : List (List ℚ), match_xfeat_core d1 d2 = «match» d1 d2 (-1)) ∧
    (∀ f1 f2 : List (List ℚ), «match» f1 f2 (-1)
      = ((List.range f1.length).filter (isMutual f1 f2)).map
          (fun i => (i, m12 f1 f2 i))) ∧
    (∀ F1 F2 : List (List (List ℚ)), batch_match F1 F2 (-1)
      = (List.range F1.length).flatMap (fun b =>
          ((List.range (F1.getD b []).length).filter
            (fun i => bmatch21 (F1.getD b []) (F2.getD b [])
                (m12 (F1.getD b []) (F2.getD b []) i) == i)).map
            (fun i => ((b, i), (b, m12 (F1.getD b []) (F2.getD b []) i))))) := by
  have h95 : (mkRat 95 100 : ℚ) = 95 / 100 := by norm_num
  refine ⟨fun f1 f2 => by rw [matchDefault, h95], ?_, fun _ _ => rfl, ?_, ?_⟩
  · intro f1 f2 p hp
    unfold matchDefault «match» at hp
    obtain ⟨i, hi, rfl⟩ := List.mem_map.mp hp
    have hik := (List.mem_filter.mp hi).2
    have hg := good_of_keepRow (by norm_num) hik
    rw [h95] at hg
    by_cases h2 : f2 = []
    · exfalso
      rw [h2] at hg
      unfold rowMax simRow at hg
      simp only [List.map_nil] at hg
      unfold listMaxD at hg
      norm_num at hg
    · show 95 / 100 < dot (f1.getD i []) (f2.getD (m12 f1 f2 i) [])
      unfold rowMax at hg
      calc (95 : ℚ) / 100 < listMaxD (simRow (f1.getD i []) f2) := hg
        _ = dot (f1.getD i []) (f2.getD (m12 f1 f2 i) []) :=
          (dot_at_argmax (f1.getD i []) f2 h2).symm
  · intro f1 f2
    unfold «match»
    rw [List.filter_congr (fun i _ => by unfold keepRow; rw [if_neg (by norm_num)])]
  · intro F1 F2
    have hfn : ∀ (f1 f2 : List (List ℚ)) (i : ℕ), batchKeep f1 f2 (-1) i
        = (bmatch21 f1 f2 (m12 f1 f2 i) == i) := by
      intro f1 f2 i
      unfold batchKeep
      rw [if_neg (by norm_num)]
    have hfn2 : ∀ f1 f2 : List (List ℚ), batchKeep f1 f2 (-1)
        = fun i => (bmatch21 f1 f2 (m12 f1 f2 i) == i) :=
      fun f1 f2 => funext (hfn f1 f2)
    unfold batch_match
    simp only [hfn2]

/-- C10 witness: the default threshold drops nothing on the concrete
perfectly-matching sets `[[1]]`, whose matched similarity is `1 > 0.95`. -/
theorem claim10_defaults_witness :
    (95 : ℚ) / 100 < dot ([[(1 : ℚ)]].getD 0 []) ([[(1 : ℚ)]].getD 0 []) :=
  claim10_defaults.2.1 [[(1 : ℚ)]] [[(1 : ℚ)]] (0, 0) (by
    norm_num [matchDefault, «match», keepRow, isMutual, m12, simRow, rowMax,
      dot, listMaxD, argmaxIdx, List.range_succ])

/-!
## Sparse pipeline: `detectAndCompute`

The backbone and the two interpolators are external collaborators, so the
candidate keypoints (`mkpts`, the NMS output including its `(0,0)` padding)
and the raw scores (`raw`, the per-candidate product
`nearest(K1h) * bilinear(H1)`) are inputs; `desc` abstracts bicubic
descriptor interpolation followed by L2 normalization at a keypoint
position. `rw` and `rh` are the preprocessing resize ratios, `top_k` is the
instance-level `self.top_k` (the method takes no per-call override).
-/

/-- One returned sparse feature: the source's `pts` row `(x, y, score)`
zipped with its descriptor. -/
structure Feature (D : Type) where
  x : ℚ
  y : ℚ
  score : ℚ
  desc : D

/-- Embeds `scores[torch.all(mkpts == 0, dim=-1)] = -1`: the per-candidate score
list with every all-zero (padding-sentinel) coordinate forced to `-1`. -/
def invalidate (mkpts : List (ℕ × ℕ)) (raw : List ℚ) : List ℚ :=
  List.zipWith (fun kp s => if kp = ((0 : ℕ), (0 : ℕ)) then (-1 : ℚ) else s)
    mkpts raw

/-- Embeds `torch.argsort(-scores)`: candidate indices in descending-score order. -/
def sortIdxDesc (scores : List ℚ) : List ℕ :=
  (List.range scores.length).mergeSort
    (fun i j => decide (scores.getD j 0 ≤ scores.getD i 0))

/-- The entry gathered for sorted candidate index `i`: keypoint scaled by
`(rw, rh)`, invalidated score, descriptor sampled at the unscaled keypoint. -/
def selEntry {D : Type} (mkpts : List (ℕ × ℕ)) (scores : List ℚ)
    (desc : ℕ × ℕ → D) (rw rh : ℚ) (i : ℕ) : Feature D :=
  Feature.mk ((mkpts.getD i (0, 0)).1 * rw) ((mkpts.getD i (0, 0)).2 * rh)
    (scores.getD i 0) (desc (mkpts.getD i (0, 0)))

/-- The top-`top_k` candidate rows of `XFeat.detectAndCompute` before the
final `scores > 0` mask: invalidate, argsort descending, truncate to
`top_k`, gather coordinates and scores, sample descriptors, rescale
coordinates, and zip into `(x, y, score, descriptor)` rows. -/
def selectedFeatures {D : Type} (mkpts : List (ℕ × ℕ)) (raw : List ℚ)
    (desc : ℕ × ℕ → D) (rw rh : ℚ) (top_k : ℕ) : List (Feature D) :=
  let scores := invalidate mkpts raw
  let idxs := (sortIdxDesc scores).take top_k
  let selKpts := idxs.map (fun i => mkpts.getD i (0, 0))
  let selScores := idxs.map (fun i => scores.getD i 0)
  let feats := selKpts.map desc
  let scaled := selKpts.map (fun kp => ((kp.1 : ℚ) * rw, (kp.2 : ℚ) * rh))
  let pts := List.zipWith (fun kp s => (kp.1, kp.2, s)) scaled selScores
  List.zipWith (fun p d => Feature.mk p.1 p.2.1 p.2.2 d) pts feats

/-- Embeds `XFeat.detectAndCompute` (one batch slot): the selected rows restricted
by the validity mask `valid = scores > 0`. -/
def detectAndCompute {D : Type} (mkpts : List (ℕ × ℕ)) (raw : List ℚ)
    (desc : ℕ × ℕ → D) (rw rh : ℚ) (top_k : ℕ) : List (Feature D) :=
  (selectedFeatures mkpts raw desc rw rh top_k).filter
    (fun f => decide (0 < f.score))

theorem zipWith_map_same {α β γ δ : Type} (f : β → γ → δ) (g : α → β)
    (h : α → γ) (l : List α) :
    List.zipWith f (l.map g) (l.map h) = l.map (fun x => f (g x) (h x)) := by
  induction l with
  | nil => simp
  | cons a l ih => simp [ih]

theorem selectedFeatures_eq_map {D : Type} (mkpts : List (ℕ × ℕ))
    (raw : List ℚ) (desc : ℕ × ℕ → D) (rw rh : ℚ) (top_k : ℕ) :
    selectedFeatures mkpts raw desc rw rh top_k
      = ((sortIdxDesc (invalidate mkpts raw)).take top_k).map
          (selEntry mkpts (invalidate mkpts raw) desc rw rh) := by
  unfold selectedFeatures
  simp only [List.map_map, zipWith_map_same]
  rfl

/-- C5. Sentinel invalidation and positivity filter: every candidate at the
`(0,0)` padding coordinate has score `-1` after invalidation (which happens
before the sort), and the returned features are exactly the top-`top_k`
selected rows whose score is strictly positive. -/
theorem claim5_sentinel_and_filter {D : Type} (mkpts : List (ℕ × ℕ))
    (raw : List ℚ) (desc : ℕ × ℕ → D) (rw rh : ℚ) (top_k : ℕ) :
    (∀ i, i < (invalidate mkpts raw).length → mkpts.getD i (0, 0) = (0, 0) →
      (invalidate mkpts raw).getD i 0 = -1) ∧
    detectAndCompute mkpts raw desc rw rh top_k
      = (selectedFeatures mkpts raw desc rw rh top_k).filter
          (fun f => decide (0 < f.score)) ∧
    (∀ f : Feature D, f ∈ detectAndCompute mkpts raw desc rw rh top_k ↔
      f ∈ selectedFeatures mkpts raw desc rw rh top_k ∧ 0 < f.score) := by
  refine ⟨?_, rfl, ?_⟩
  · intro i hi hkp
    have him : i < mkpts.length := by
      rw [invalidate, List.length_zipWith, lt_min_iff] at hi
      exact hi.1
    rw [List.getD_eq_getElem _ _ hi]
    unfold invalidate
    rw [List.getElem_zipWith]
    rw [List.getD_eq_getElem _ _ him] at hkp
    rw [if_pos hkp]
  · intro f
    unfold detectAndCompute
    simp [List.mem_filter]

/-- C5 witness: a candidate at the padding sentinel `(0,0)` with raw score
`5` is reassigned score `-1`. -/
theorem claim5_sentinel_and_filter_witness :
    (invalidate [(0, 0)] [5]).getD 0 0 = -1 :=
  (claim5_sentinel_and_filter [(0, 0)] [5] (fun _ => ()) 1 1 4).1 0
    (by simp [invalidate]) (by simp)

/-- C8 (supporting theorem for the residual true part of the claim): the
per-image result of `detectAndCompute` never contains more than `top_k`
features. The claimed per-call override of `top_k` does not exist in the
code: `detectAndCompute(self, x)` reads only the constructor-level
`self.top_k`. -/
theorem claim8_top_k_bound {D : Type} (mkpts : List (ℕ × ℕ)) (raw : List ℚ)
    (desc : ℕ × ℕ → D) (rw rh : ℚ) (top_k : ℕ) :
    (detectAndCompute mkpts raw desc rw rh top_k).length ≤ top_k := by
  unfold detectAndCompute
  calc (List.filter _ (selectedFeatures mkpts raw desc rw rh top_k)).length
      ≤ (selectedFeatures mkpts raw desc rw rh top_k).length :=
        List.length_filter_le _ _
    _ ≤ top_k := by
        rw [selectedFeatures_eq_map]
        simp only [List.length_map, List.length_take]
        exact min_le_left _ _

/-- C9. No returned keypoint sits at the origin: a candidate whose
(pre-rescale) coordinates are `(0,0)` — genuine detection or padding — is
scored `-1` regardless of its heatmap and reliability values, and the
strict positivity filter together with the positive resize ratios excludes
the origin from the output. -/
theorem claim9_no_origin_keypoint {D : Type} (mkpts : List (ℕ × ℕ))
    (raw : List ℚ) (desc : ℕ × ℕ → D) (rw rh : ℚ) (top_k : ℕ)
    (hrw : 0 < rw) (hrh : 0 < rh) (f : Feature D)
    (hf : f ∈ detectAndCompute mkpts raw desc rw rh top_k) :
    ¬(f.x = 0 ∧ f.y = 0) := by
  rintro ⟨hx, hy⟩
  unfold detectAndCompute at hf
  rw [List.mem_filter] at hf
  obtain ⟨hmem, hposb⟩ := hf
  have hscore : 0 < f.score := of_decide_eq_true hposb
  rw [selectedFeatures_eq_map] at hmem
  obtain ⟨i, _, rfl⟩ := List.mem_map.mp hmem
  simp only [selEntry] at hscore hx hy
  by_cases hlen : (invalidate mkpts raw).length ≤ i
  · rw [List.getD_eq_default _ _ hlen] at hscore
    exact lt_irrefl 0 hscore
  · push_neg at hlen
    have him : i < mkpts.length := by
      rw [invalidate, List.length_zipWith, lt_min_iff] at hlen
      exact hlen.1
    have hz : mkpts.getD i (0, 0) = (0, 0) := by
      have h1 : ((mkpts.getD i (0, 0)).1 : ℚ) = 0 :=
        (mul_eq_zero.mp hx).resolve_right (ne_of_gt hrw)
      have h2 : ((mkpts.getD i (0, 0)).2 : ℚ) = 0 :=
        (mul_eq_zero.mp hy).resolve_right (ne_of_gt hrh)
      exact Prod.ext (Nat.cast_eq_zero.mp h1) (Nat.cast_eq_zero.mp h2)
    have hminus : (invalidate mkpts raw).getD i 0 = -1 := by
      rw [List.getD_eq_getElem _ _ hlen]
      unfold invalidate
      rw [List.getElem_zipWith]
      rw [List.getD_eq_getElem _ _ him] at hz
      rw [if_pos hz]
    rw [hminus] at hscore
    norm_num at hscore

/-- C9 witness: a genuine detection at `(1,2)` with raw score `1` survives,
and its returned feature is away from the origin. -/
theorem claim9_no_origin_keypoint_witness :
    ¬((selEntry [((1 : ℕ), (2 : ℕ))] (invalidate [(1, 2)] [1])
        (fun _ => ()) 1 1 0).x = 0 ∧
      (selEntry [((1 : ℕ), (2 : ℕ))] (invalidate [(1, 2)] [1])
        (fun _ => ()) 1 1 0).y = 0) :=
  claim9_no_origin_keypoint [(1, 2)] [1] (fun _ => ()) 1 1 5 one_pos one_pos
    _ (by
      unfold detectAndCompute
      refine List.mem_filter.mpr ⟨?_, ?_⟩
      · rw [selectedFeatures_eq_map]
        refine List.mem_map.mpr ⟨0, ?_, rfl⟩
        norm_num [sortIdxDesc, invalidate, List.range_succ]
      · norm_num [selEntry, invalidate])

/-!
## Heatmap decoder: `get_kpts_heatmap`

`F.softmax(kpts * softmax_temp, 1)[:, :64]` followed by
`permute(0,2,3,1).reshape(B,H,W,8,8).permute(0,1,3,2,4).reshape(B,1,8H,8W)`.
Chasing indices through the reshapes: writing `scores[b,c,i,j]` for the
softmax output, the first reshape gives `t[b,i,j,p,q] = scores[b,8p+q,i,j]`,
the permute gives `t2[b,i,p,j,q] = scores[b,8p+q,i,j]`, and the final
reshape flattens `(i,p)` to row `8i+p` and `(j,q)` to column `8j+q`. Hence
`heatmap[b,0,y,x] = scores[b, 8*(y%8) + x%8, y/8, x/8]`, which is the form
embedded below for one image. The claim fixes a 64-channel logit map, on
which the `[:, :64]` slice is the identity.
-/

/-- Channel index of sub-cell `(p, q)` inside a coarse cell: `8p + q`. -/
def subIdx (p q : Fin 8) : Fin 64 :=
  ⟨8 * p.val + q.val, by
    have hp := p.isLt
    have hq := q.isLt
    omega⟩

/-- Embeds `F.softmax` over the 64-channel axis, with the exponential abstracted as
a parameter `e`. -/
def softmax64 (e : ℚ → ℚ) (v : Fin 64 → ℚ) (c : Fin 64) : ℚ :=
  e (v c) / ∑ j : Fin 64, e (v j)

/-- Embeds `XFeat.get_kpts_heatmap` for one image: value of heatmap pixel `(y, x)`
given the 64-channel coarse logit map `K` and the softmax temperature
(`softmax_temp = 1.0` in the source's default). -/
def get_kpts_heatmap (e : ℚ → ℚ) (K : Fin 64 → ℕ → ℕ → ℚ) (temp : ℚ)
    (y x : ℕ) : ℚ :=
  softmax64 e (fun c => K c (y / 8) (x / 8) * temp)
    ⟨8 * (y % 8) + x % 8, by
      have hy := Nat.mod_lt y (show 0 < 8 by norm_num)
      have hx := Nat.mod_lt x (show 0 < 8 by norm_num)
      omega⟩

theorem sum_softmax64 (e : ℚ → ℚ) (he : ∀ z, 0 < e z) (v : Fin 64 → ℚ) :
    ∑ c : Fin 64, softmax64 e v c = 1 := by
  have hpos : 0 < ∑ j : Fin 64, e (v j) :=
    Finset.sum_pos (fun j _ => he (v j)) ⟨⟨0, by norm_num⟩, Finset.mem_univ _⟩
  unfold softmax64
  rw [← Finset.sum_div]
  exact div_self (ne_of_gt hpos)

theorem sum_fin8_fin8 (g : Fin 64 → ℚ) :
    ∑ p : Fin 8, ∑ q : Fin 8, g (subIdx p q) = ∑ c : Fin 64, g c := by
  have hstep : ∑ p : Fin 8, ∑ q : Fin 8, g (subIdx p q)
      = ∑ x : Fin 8 × Fin 8, g (subIdx x.1 x.2) :=
    (Fintype.sum_prod_type (fun x : Fin 8 × Fin 8 => g (subIdx x.1 x.2))).symm
  rw [hstep]
  have hinj : Function.Injective (fun x : Fin 8 × Fin 8 => subIdx x.1 x.2) := by
    intro a b hab
    have hv : 8 * a.1.val + a.2.val = 8 * b.1.val + b.2.val :=
      congrArg Fin.val hab
    have h1 := a.1.isLt
    have h2 := a.2.isLt
    have h3 := b.1.isLt
    have h4 := b.2.isLt
    have hfst : a.1.val = b.1.val := by omega
    have hsnd : a.2.val = b.2.val := by omega
    exact Prod.ext (Fin.ext hfst) (Fin.ext hsnd)
  have hbij : Function.Bijective (fun x : Fin 8 × Fin 8 => subIdx x.1 x.2) :=
    (Fintype.bijective_iff_injective_and_card _).mpr ⟨hinj, by simp⟩
  exact Fintype.sum_bijective _ hbij _ _ (fun x => rfl)

/-- C4. Heatmap layout and normalization: heatmap pixel `(8i+p, 8j+q)` holds
the softmax weight of channel `8p+q` (sub-cell `(p,q)`) of coarse cell
`(i,j)`, and the decoded 8 by 8 sub-block of every coarse cell sums to `1`,
for any positive exponential. -/
theorem claim4_heatmap_layout_normalized (e : ℚ → ℚ) (he : ∀ z, 0 < e z)
    (K : Fin 64 → ℕ → ℕ → ℚ) (temp : ℚ) (i j : ℕ) (p q : Fin 8) :
    get_kpts_heatmap e K temp (8 * i + p.val) (8 * j + q.val)
      = softmax64 e (fun c => K c i j * temp) (subIdx p q) ∧
    ∑ u : Fin 8, ∑ v : Fin 8,
      get_kpts_heatmap e K temp (8 * i + u.val) (8 * j + v.val) = 1 := by
  have hdiv : ∀ (a : ℕ) (r : Fin 8), (8 * a + r.val) / 8 = a := by
    intro a r
    have hr := r.isLt
    omega
  have hmod : ∀ (a : ℕ) (r : Fin 8), (8 * a + r.val) % 8 = r.val := by
    intro a r
    have hr := r.isLt
    omega
  have hlay : ∀ u v : Fin 8,
      get_kpts_heatmap e K temp (8 * i + u.val) (8 * j + v.val)
        = softmax64 e (fun c => K c i j * temp) (subIdx u v) := by
    intro u v
    unfold get_kpts_heatmap subIdx
    simp only [hdiv, hmod]
  refine ⟨hlay p q, ?_⟩
  calc ∑ u : Fin 8, ∑ v : Fin 8,
        get_kpts_heatmap e K temp (8 * i + u.val) (8 * j + v.val)
      = ∑ u : Fin 8, ∑ v : Fin 8,
          softmax64 e (fun c => K c i j * temp) (subIdx u v) :=
        Finset.sum_congr rfl (fun u _ =>
          Finset.sum_congr rfl (fun v _ => hlay u v))
    _ = ∑ c : Fin 64, softmax64 e (fun c => K c i j * temp) c :=
        sum_fin8_fin8 _
    _ = 1 := sum_softmax64 e he _

/-- C4 witness: the all-zero logit map with the constant-one exponential has
cell `(0,0)` decode to a sub-block summing to `1`. -/
theorem claim4_heatmap_layout_normalized_witness :
    ∑ u : Fin 8, ∑ v : Fin 8,
      get_kpts_heatmap (fun _ => 1) (fun _ _ _ => 0) 1
        (8 * 0 + u.val) (8 * 0 + v.val) = 1 :=
  (claim4_heatmap_layout_normalized (fun _ => 1) (fun _ => one_pos)
    (fun _ _ _ => 0) 1 0 0 ⟨0, by norm_num⟩ ⟨0, by norm_num⟩).2

/-!
## Dense pipeline: `extractDense` and `extract_dualscale`

The backbone outputs for each pyramid level enter as parameters: `M` is the
flattened `B, H*W, C` descriptor map (one row per coarse cell, row-major)
and `rel` the flattened reliability map `H1`. `torch.topk(H1, k)` is the
first `min(len, k)` indices of the descending-score argsort. The source
computes the per-scale budgets as `int(self.top_k*0.20)` and
`int(self.top_k*0.80)`; for a natural `top_k` these are embedded as
`top_k * 20 / 100` and `top_k * 80 / 100` (floor division), which agree
with the float expressions at the claim's `top_k = 100`.
-/

/-- Embeds `XFeat.create_xy`: row-major `(col, row)` coordinates of an `h` by `w`
grid. -/
def create_xy (h w : ℕ) : List (ℕ × ℕ) :=
  (List.range h).flatMap (fun r => (List.range w).map (fun c => (c, r)))

/-- Embeds `XFeat.extractDense` for one image: every coarse cell is a candidate at
coordinate `8 * (col, row)`; cells are ranked by reliability, the top
`min(totalCells, top_k)` kept, and coordinates rescaled by `(rw, rh)`. -/
def extractDense (h w : ℕ) (M : List (List ℚ)) (rel : List ℚ) (top_k : ℕ)
    (rw rh : ℚ) : List (ℚ × ℚ) × List (List ℚ) :=
  let xy := create_xy h w
  let idxs := (sortIdxDesc rel).take (min rel.length top_k)
  let feats := idxs.map (fun i => M.getD i [])
  let mkpts := idxs.map (fun i =>
    ((((xy.getD i (0, 0)).1 * 8 : ℕ) : ℚ) * rw,
     (((xy.getD i (0, 0)).2 * 8 : ℕ) : ℚ) * rh))
  (mkpts, feats)

/-- Embeds `XFeat.extract_dualscale`: run `extractDense` independently on the two
resized inputs with the `20%/80%` budget split, divide each scale's
coordinates by its own resize factor, tag each feature with `1/s1` or
`1/s2`, and concatenate. -/
def extract_dualscale (h1 w1 h2 w2 : ℕ) (M1 : List (List ℚ)) (rel1 : List ℚ)
    (M2 : List (List ℚ)) (rel2 : List ℚ) (rw1 rh1 rw2 rh2 : ℚ)
    (top_k : ℕ) (s1 s2 : ℚ) :
    List (ℚ × ℚ) × List ℚ × List (List ℚ) :=
  let r1 := extractDense h1 w1 M1 rel1 (top_k * 20 / 100) rw1 rh1
  let r2 := extractDense h2 w2 M2 rel2 (top_k * 80 / 100) rw2 rh2
  let mkpts := r1.1.map (fun p => (p.1 / s1, p.2 / s1))
    ++ r2.1.map (fun p => (p.1 / s2, p.2 / s2))
  let sc := List.replicate r1.1.length (1 / s1)
    ++ List.replicate r2.1.length (1 / s2)
  let feats := r1.2 ++ r2.2
  (mkpts, sc, feats)

theorem extractDense_len (h w : ℕ) (M : List (List ℚ)) (rel : List ℚ)
    (top_k : ℕ) (rw rh : ℚ) :
    (extractDense h w M rel top_k rw rh).1.length = min rel.length top_k := by
  unfold extractDense
  simp only [List.length_map, List.length_take, sortIdxDesc,
    List.length_mergeSort, List.length_range]
  exact min_eq_left (min_le_left _ _)

/-- C6. Dual-scale concatenation at `top_k = 100`: when the first pyramid
level has at least 20 cells and the second at least 80, the result is
exactly 20 features tagged `1/s1 = 1/0.6` followed by exactly 80 features
tagged `1/s2 = 1/1.3`, with each scale's coordinates divided by its own
resize factor before concatenation. -/
theorem claim6_dualscale_split (h1 w1 h2 w2 : ℕ) (M1 : List (List ℚ))
    (rel1 : List ℚ) (M2 : List (List ℚ)) (rel2 : List ℚ)
    (rw1 rh1 rw2 rh2 : ℚ) (h20 : 20 ≤ rel1.length) (h80 : 80 ≤ rel2.length) :
    (extract_dualscale h1 w1 h2 w2 M1 rel1 M2 rel2 rw1 rh1 rw2 rh2
        100 (3 / 5) (13 / 10)).2.1
      = List.replicate 20 (1 / (3 / 5)) ++ List.replicate 80 (1 / (13 / 10)) ∧
    (extract_dualscale h1 w1 h2 w2 M1 rel1 M2 rel2 rw1 rh1 rw2 rh2
        100 (3 / 5) (13 / 10)).1
      = (extractDense h1 w1 M1 rel1 20 rw1 rh1).1.map
          (fun p => (p.1 / (3 / 5), p.2 / (3 / 5)))
        ++ (extractDense h2 w2 M2 rel2 80 rw2 rh2).1.map
          (fun p => (p.1 / (13 / 10), p.2 / (13 / 10))) ∧
    (extractDense h1 w1 M1 rel1 20 rw1 rh1).1.length = 20 ∧
    (extractDense h2 w2 M2 rel2 80 rw2 rh2).1.length = 80 := by
  have hk1 : 100 * 20 / 100 = 20 := by norm_num
  have hk2 : 100 * 80 / 100 = 80 := by norm_num
  have hl1 : (extractDense h1 w1 M1 rel1 20 rw1 rh1).1.length = 20 := by
    rw [extractDense_len]
    exact min_eq_right h20
  have hl2 : (extractDense h2 w2 M2 rel2 80 rw2 rh2).1.length = 80 := by
    rw [extractDense_len]
    exact min_eq_right h80
  unfold extract_dualscale
  rw [hk1, hk2]
  refine ⟨?_, rfl, hl1, hl2⟩
  show List.replicate (extractDense h1 w1 M1 rel1 20 rw1 rh1).1.length
      (1 / (3 / 5))
    ++ List.replicate (extractDense h2 w2 M2 rel2 80 rw2 rh2).1.length
      (1 / (13 / 10))
    = List.replicate 20 (1 / (3 / 5)) ++ List.replicate 80 (1 / (13 / 10))
  rw [hl1, hl2]

/-- C6 witness: with 20 and 80 reliability entries available, the scale tags
are exactly twenty `1/0.6` followed by eighty `1/1.3`. -/
theorem claim6_dualscale_split_witness :
    (extract_dualscale 0 0 0 0 [] (List.replicate 20 0) [] (List.replicate 80 0)
        1 1 1 1 100 (3 / 5) (13 / 10)).2.1
      = List.replicate 20 (1 / (3 / 5)) ++ List.replicate 80 (1 / (13 / 10)) :=
  (claim6_dualscale_split 0 0 0 0 [] (List.replicate 20 0) []
    (List.replicate 80 0) 1 1 1 1 (by simp) (by simp)).1

/-!
## Refiner: `refine_matches`

The fine matcher `self.net.fine_matcher` is an external collaborator: `fm`
maps the concatenated descriptor pair (length 128) to the 64 offset logits.
`d0`, `d1` are the dense-pipeline outputs (`keypoints`, `scales`,
`descriptors`, each batched), and `idxs` carries the `(idx0_b, idx1_b)`
rows of `batch_match`.
-/

/-- The dense-extraction output record consumed by the refiner. -/
structure DenseOut where
  keypoints : List (List (ℚ × ℚ))
  scales : List (List ℚ)
  descriptors : List (List (List ℚ))

/-- Embeds `conf = F.softmax(offsets*3, dim=-1).max(dim=-1)[0]` for one
correspondence. -/
def confOf (e : ℚ → ℚ) (logits : Fin 64 → ℚ) : ℚ :=
  listMaxD (List.ofFn (softmax64 e (fun c => logits c * 3)))

/-- Embeds `XFeat.subpix_softmax2d` (temperature 3) on one 8 by 8 logit grid:
soft-argmax coordinates relative to the grid midpoint. Grid cell `(p, q)`
holds logit `8p+q`; the first component weights `p - 4`, the second
`q - 4`, exactly as the source's meshgrid does. -/
def subpix_softmax2d (e : ℚ → ℚ) (logits : Fin 64 → ℚ) : ℚ × ℚ :=
  (∑ p : Fin 8, ∑ q : Fin 8,
      ((p.val : ℚ) - 4) * softmax64 e (fun c => 3 * logits c) (subIdx p q),
   ∑ p : Fin 8, ∑ q : Fin 8,
      ((q.val : ℚ) - 4) * softmax64 e (fun c => 3 * logits c) (subIdx p q))

/-- One correspondence row of `XFeat.refine_matches` before the confidence
mask: the displaced left keypoint with the right keypoint
(`(x0, y0, x1, y1)`), the fine confidence, and the originating batch
index. -/
def refineRow (e : ℚ → ℚ) (fm : List ℚ → Fin 64 → ℚ) (d0 d1 : DenseOut)
    (pr : (ℕ × ℕ) × (ℕ × ℕ)) : (ℚ × ℚ × ℚ × ℚ) × ℚ × ℕ :=
  let f1 := (d0.descriptors.getD pr.1.1 []).getD pr.1.2 []
  let f2 := (d1.descriptors.getD pr.2.1 []).getD pr.2.2 []
  let kp0 := (d0.keypoints.getD pr.1.1 []).getD pr.1.2 (0, 0)
  let kp1 := (d1.keypoints.getD pr.2.1 []).getD pr.2.2 (0, 0)
  let sc0 := (d0.scales.getD pr.1.1 []).getD pr.1.2 0
  let logits := fm (f1 ++ f2)
  let off := subpix_softmax2d e logits
  ((kp0.1 + off.1 * sc0, kp0.2 + off.2 * sc0, kp1.1, kp1.2),
    confOf e logits, pr.1.1)

/-- Embeds `XFeat.refine_matches`: keep the rows whose fine confidence strictly
exceeds `fine_conf`; emit `(x0, y0, x1, y1)` with the batch index. -/
def refine_matches (e : ℚ → ℚ) (fm : List ℚ → Fin 64 → ℚ) (d0 d1 : DenseOut)
    (idxs : List ((ℕ × ℕ) × (ℕ × ℕ))) (fine_conf : ℚ) :
    List ((ℚ × ℚ × ℚ × ℚ) × ℕ) :=
  ((idxs.map (refineRow e fm d0 d1)).filter
      (fun r => decide (fine_conf < r.2.1))).map
    (fun r => (r.1, r.2.2))

theorem softmax64_const (e : ℚ → ℚ) (he : ∀ z, 0 < e z) (a : ℚ) (c : Fin 64) :
    softmax64 e (fun _ => a) c = 1 / 64 := by
  unfold softmax64
  rw [Finset.sum_const, Finset.card_univ, Fintype.card_fin, nsmul_eq_mul]
  have ha : e a ≠ 0 := ne_of_gt (he a)
  field_simp
  ring

theorem listMaxD_replicate (n : ℕ) (c : ℚ) :
    listMaxD (List.replicate (n + 1) c) = c := by
  induction n with
  | zero => simp [listMaxD]
  | succ k ih =>
    rw [List.replicate_succ, List.replicate_succ]
    have h2 : listMaxD (c :: List.replicate k c) = c := by
      rw [← List.replicate_succ]
      exact ih
    calc listMaxD (c :: c :: List.replicate k c)
        = max c (listMaxD (c :: List.replicate k c)) := by simp [listMaxD]
      _ = max c c := by rw [h2]
      _ = c := max_self c

/-- C7. Refinement gating: `refine_matches` emits exactly the coarse
correspondences whose fine confidence (max of the temperature-3 softmax of
the 64 offset logits) strictly exceeds the threshold; with a uniform-logit
fine matcher every confidence is exactly `1/64`, so threshold `1/4`
yields an empty list. -/
theorem claim7_refinement_gating (e : ℚ → ℚ) (he : ∀ z, 0 < e z)
    (fm : List ℚ → Fin 64 → ℚ) (d0 d1 : DenseOut)
    (idxs : List ((ℕ × ℕ) × (ℕ × ℕ))) (t : ℚ) :
    (∀ r ∈ refine_matches e fm d0 d1 idxs t,
      ∃ pr ∈ idxs, t < (refineRow e fm d0 d1 pr).2.1 ∧
        r = ((refineRow e fm d0 d1 pr).1, (refineRow e fm d0 d1 pr).2.2)) ∧
    (∀ pr ∈ idxs, t < (refineRow e fm d0 d1 pr).2.1 →
      ((refineRow e fm d0 d1 pr).1, (refineRow e fm d0 d1 pr).2.2)
        ∈ refine_matches e fm d0 d1 idxs t) ∧
    ((∀ ds : List ℚ, ∃ L : ℚ, ∀ c : Fin 64, fm ds c = L) → t = 1 / 4 →
      refine_matches e fm d0 d1 idxs t = []) := by
  have hconf_uniform : (∀ ds : List ℚ, ∃ L : ℚ, ∀ c : Fin 64, fm ds c = L) →
      ∀ ds : List ℚ, confOf e (fm ds) = 1 / 64 := by
    intro hu ds
    obtain ⟨L, hL⟩ := hu ds
    have hv : (fun c => fm ds c * 3) = fun _ : Fin 64 => L * 3 :=
      funext (fun c => by rw [hL c])
    unfold confOf
    rw [hv]
    have hfn : softmax64 e (fun _ : Fin 64 => L * 3) = fun _ => (1 : ℚ) / 64 :=
      funext (fun c => softmax64_const e he (L * 3) c)
    rw [hfn, List.ofFn_const]
    exact listMaxD_replicate 63 (1 / 64)
  refine ⟨?_, ?_, ?_⟩
  · intro r hr
    unfold refine_matches at hr
    obtain ⟨row, hrow, rfl⟩ := List.mem_map.mp hr
    obtain ⟨hrowm, hgood⟩ := List.mem_filter.mp hrow
    obtain ⟨pr, hpr, rfl⟩ := List.mem_map.mp hrowm
    exact ⟨pr, hpr, of_decide_eq_true hgood, rfl⟩
  · intro pr hpr hgt
    unfold refine_matches
    exact List.mem_map.mpr ⟨refineRow e fm d0 d1 pr,
      List.mem_filter.mpr ⟨List.mem_map.mpr ⟨pr, hpr, rfl⟩,
        decide_eq_true hgt⟩, rfl⟩
  · intro hu ht
    unfold refine_matches
    have hnil : (idxs.map (refineRow e fm d0 d1)).filter
        (fun r => decide (t < r.2.1)) = [] := by
      rw [List.filter_eq_nil_iff]
      intro row hrow
      obtain ⟨pr, _, rfl⟩ := List.mem_map.mp hrow
      have hc : (refineRow e fm d0 d1 pr).2.1 = 1 / 64 := hconf_uniform hu _
      simp only [hc, ht, decide_eq_true_eq]
      norm_num
    rw [hnil]
    rfl

/-- C7 witness: a uniform (all-zero-logit) fine matcher with the constant-one
exponential and threshold `1/4` refines one coarse correspondence to the
empty match list. -/
theorem claim7_refinement_gating_witness :
    refine_matches (fun _ => 1) (fun _ _ => 0)
      (DenseOut.mk [[(0, 0)]] [[1]] [[[0]]]) (DenseOut.mk [[(0, 0)]] [[1]] [[[0]]])
      [((0, 0), (0, 0))] (1 / 4) = [] :=
  (claim7_refinement_gating (fun _ => 1) (fun _ => one_pos) (fun _ _ => 0)
    (DenseOut.mk [[(0, 0)]] [[1]] [[[0]]]) (DenseOut.mk [[(0, 0)]] [[1]] [[[0]]])
    [((0, 0), (0, 0))] (1 / 4)).2.2
    (fun _ => ⟨0, fun _ => rfl⟩) rfl

end XFeat
